import Mathlib

/-!
Verification of the Tiered Storage & Cache Manager of the URL-Shortener
repository (`storage-manager.js`).  The persistence layer is shallowly
embedded: JavaScript values are modelled by `JVal`, the IndexedDB database by
`DB` (one record list per object store, records keyed by their key path), the
in-memory `Map` cache and the `localStorage` fallback by association lists,
and the whole manager state by `SMState`.  Times (`Date.now()`) are passed
explicitly as integers.  Serialized `localStorage` strings are modelled by
`LSVal`: `ser v` is the `JSON.stringify` image of `v` and `malformed s`
stands for a string on which `JSON.parse` throws.
-/

/-- A JavaScript/JSON value, as stored by the manager. -/
inductive JVal where
  | null
  | bool (b : Bool)
  | num (n : Int)
  | str (s : String)
  | arr (elems : List JVal)
  | obj (fields : List (String × JVal))

/-- A valid IndexedDB key as used by this application (numbers and strings). -/
inductive JKey where
  | num (n : Int)
  | str (s : String)
deriving DecidableEq

/-- A `localStorage` value: either the serialization of a JSON value or a
string on which `JSON.parse` fails. -/
inductive LSVal where
  | ser (v : JVal)
  | malformed (s : String)

/-- Association-list lookup by string key (first binding wins, as in a JS
object / `Map`). -/
def alistGet {α : Type} (l : List (String × α)) (k : String) : Option α :=
  (l.find? (fun kv => kv.1 == k)).map (fun kv => kv.2)

/-- Association-list upsert: overwrite the binding in place when the key is
present (keeping its position, as JS object spread / `Map.set` do), append
otherwise. -/
def alistSet {α : Type} : List (String × α) → String → α → List (String × α)
  | [], k, v => [(k, v)]
  | kv :: rest, k, v =>
      if kv.1 == k then (k, v) :: rest else kv :: alistSet rest k v

/-- Association-list removal (JS `Map.delete` / `localStorage.removeItem`). -/
def alistRemove {α : Type} (l : List (String × α)) (k : String) :
    List (String × α) :=
  l.filter (fun kv => !(kv.1 == k))

/-- Property access `r.k` on a JS value: `none` models `undefined`. -/
def getField (r : JVal) (k : String) : Option JVal :=
  match r with
  | .obj fs => alistGet fs k
  | _ => none

/-- JavaScript truthiness of a value. -/
def truthy : JVal → Bool
  | .null => false
  | .bool b => b
  | .num n => n != 0
  | .str s => s != ""
  | .arr _ => true
  | .obj _ => true

/-- Property access collapsing `undefined` to `null` (both are falsy and the
manager only ever branches on truthiness of such accesses). -/
def fieldD (r : JVal) (k : String) : JVal :=
  (getField r k).getD .null

/-- Escape a character for a JSON string literal. -/
def escapeChar (c : Char) : List Char :=
  if c == '"' then ['\\', '"']
  else if c == '\\' then ['\\', '\\']
  else if c == '\n' then ['\\', 'n']
  else if c == '\t' then ['\\', 't']
  else if c == '\r' then ['\\', 'r']
  else [c]

/-- Escape a string for a JSON string literal. -/
def escapeStr (s : String) : String :=
  String.mk (s.data.foldr (fun c acc => escapeChar c ++ acc) [])

mutual

/-- `JSON.stringify` (compact form, as the browser produces it). -/
def stringify : JVal → String
  | .null => "null"
  | .bool true => "true"
  | .bool false => "false"
  | .num n => toString n
  | .str s => "\"" ++ escapeStr s ++ "\""
  | .arr xs => "[" ++ stringifyArr xs ++ "]"
  | .obj fs => "\x7b" ++ stringifyObj fs ++ "\x7d"

/-- Comma-joined serialization of array elements. -/
def stringifyArr : List JVal → String
  | [] => ""
  | [x] => stringify x
  | x :: y :: rest => stringify x ++ "," ++ stringifyArr (y :: rest)

/-- Comma-joined serialization of object entries. -/
def stringifyObj : List (String × JVal) → String
  | [] => ""
  | [(k, v)] => "\"" ++ escapeStr k ++ "\":" ++ stringify v
  | (k, v) :: e :: rest =>
      "\"" ++ escapeStr k ++ "\":" ++ stringify v ++ "," ++ stringifyObj (e :: rest)

end

mutual

/-- JavaScript template-literal rendering of a value (used by the manager for
keys such as `url_${id}`). -/
def tmplVal : JVal → String
  | .null => "null"
  | .bool true => "true"
  | .bool false => "false"
  | .num n => toString n
  | .str s => s
  | .arr xs => tmplArr xs
  | .obj _ => "[object Object]"

/-- `Array.prototype.toString`: elements joined by commas, `null` rendered
empty inside an array. -/
def tmplArr : List JVal → String
  | [] => ""
  | [x] => tmplElem x
  | x :: y :: rest => tmplElem x ++ "," ++ tmplArr (y :: rest)

/-- One array element under `Array.prototype.join`. -/
def tmplElem : JVal → String
  | .null => ""
  | v => tmplVal v

end

/-- Template-literal rendering of a possibly-`undefined` property access. -/
def tmpl : Option JVal → String
  | none => "undefined"
  | some v => tmplVal v

/-- Render an IndexedDB key in a template literal. -/
def jkeyStr : JKey → String
  | .num n => toString n
  | .str s => s

/-- Whitespace class used by the compression regex `\s+`. -/
def isWs (c : Char) : Bool :=
  c == ' ' || c == '\n' || c == '\t' || c == '\r'

/-- `.replace(/\s+/g, ' ')`: collapse each whitespace run to one space. -/
def collapseWs : List Char → List Char
  | [] => []
  | [c] => [if isWs c then ' ' else c]
  | c1 :: c2 :: rest =>
      if isWs c1 && isWs c2 then collapseWs (c2 :: rest)
      else (if isWs c1 then ' ' else c1) :: collapseWs (c2 :: rest)

/-- Global replacement of the four-character pattern quote-colon-space-quote
by quote-colon-quote. -/
def replColonQuote : List Char → List Char
  | '"' :: ':' :: ' ' :: '"' :: rest => '"' :: ':' :: '"' :: replColonQuote rest
  | c :: rest => c :: replColonQuote rest
  | [] => []

/-- Global replacement of the four-character pattern quote-comma-space-quote
by quote-comma-quote. -/
def replCommaQuote : List Char → List Char
  | '"' :: ',' :: ' ' :: '"' :: rest => '"' :: ',' :: '"' :: replCommaQuote rest
  | c :: rest => c :: replCommaQuote rest
  | [] => []

/-- `String.prototype.trim`. -/
def trimWs (l : List Char) : List Char :=
  ((l.dropWhile isWs).reverse.dropWhile isWs).reverse

/-- The own-enumerable fields produced by spreading a value into an object
literal, as `compressData` does with `{ ...data, ... }`. -/
def spreadFields : JVal → List (String × JVal)
  | .obj fs => fs
  | .arr xs => xs.enum.map (fun p => (toString p.1, p.2))
  | .str s => s.data.enum.map (fun p => (toString p.1, .str (String.mk [p.2])))
  | _ => []

/-- `compressData` from `storage-manager.js`: measures the JSON serialization
before and after whitespace stripping and returns the record extended with
the `_compressed`, `_originalSize` and `_compressedSize` bookkeeping fields.
The serialization itself is total here, so the source's fallback catch branch
is unreachable in the model. -/
def compressData (data : JVal) : JVal :=
  let jsonString := stringify data
  let compressed :=
    String.mk (trimWs (replCommaQuote (replColonQuote (collapseWs jsonString.data))))
  .obj (alistSet (alistSet (alistSet (spreadFields data)
          "_compressed" (.bool true))
          "_originalSize" (.num (jsonString.length : Int)))
          "_compressedSize" (.num (compressed.length : Int)))

/-- Is a field name one of the three compression bookkeeping fields? -/
def isMarker (k : String) : Bool :=
  k == "_compressed" || k == "_originalSize" || k == "_compressedSize"

/-- `decompressData` from `storage-manager.js`: when the record is truthy and
carries a truthy `_compressed` marker, strip the three bookkeeping fields;
otherwise return the record unchanged. -/
def decompressData (data : JVal) : JVal :=
  if truthy data && truthy (fieldD data "_compressed") then
    match data with
    | .obj fs => .obj (fs.filter (fun kv => !isMarker kv.1))
    | other => other
  else data

/-- A plain URL record: an object that does not carry any of the compression
bookkeeping fields (the shape of every record handed to `saveURL` by the
application layer). -/
def plainRecord : JVal → Bool
  | .obj fs => fs.all (fun kv => !isMarker kv.1)
  | _ => false

/-- The save-side conditional transform of `saveURL` (line 90):
`this.compressionEnabled ? this.compressData(urlData) : urlData`. -/
def saveTransform (compressionEnabled : Bool) (d : JVal) : JVal :=
  if compressionEnabled then compressData d else d

/-- The read-side conditional transform of `getURL` (line 117):
`this.compressionEnabled ? this.decompressData(data) : data`. -/
def readTransform (compressionEnabled : Bool) (d : JVal) : JVal :=
  if compressionEnabled then decompressData d else d

/-- The five object stores of `SecureURLShortenerDB`, each a list of records
keyed by its key path (`urls` by `id`, `analytics` by `urlId`, `security` by
`id`, `settings` by `key`, `cache` by `key`). -/
structure DB where
  urls : List JVal
  analytics : List JVal
  security : List JVal
  settings : List JVal
  cacheStore : List JVal

/-- Key-path extraction for an IndexedDB put: the field must hold a valid key
(number or string) or the put throws `DataError`. -/
def keyOf (r : JVal) (path : String) : Option JKey :=
  match getField r path with
  | some (.num n) => some (.num n)
  | some (.str s) => some (.str s)
  | _ => none

/-- `store.get k` on an object store. -/
def getRecord (recs : List JVal) (path : String) (k : JKey) : Option JVal :=
  recs.find? (fun r => keyOf r path == some k)

/-- The insert-or-replace performed by `store.put` once the key is known. -/
def upsertRecs : List JVal → String → JKey → JVal → List JVal
  | [], _, _, r => [r]
  | x :: xs, path, k, r =>
      if keyOf x path == some k then r :: xs else x :: upsertRecs xs path k r

/-- `store.put r`: throws when the record has no valid key at the key path,
upserts otherwise. -/
def putRec (recs : List JVal) (path : String) (r : JVal) :
    Except Unit (List JVal) :=
  match keyOf r path with
  | some k => .ok (upsertRecs recs path k r)
  | none => .error ()

/-- `store.delete k`: removes every record under the key, succeeds whether or
not one exists. -/
def delRec (recs : List JVal) (path : String) (k : JKey) : List JVal :=
  recs.filter (fun r => !(keyOf r path == some k))

/-- The manager state: the structured store (`none` when IndexedDB is
unavailable), the volatile memory cache, the `localStorage` fallback and the
process-wide compression toggle. -/
structure SMState where
  db : Option DB
  cache : List (String × JVal)
  localStore : List (String × LSVal)
  compressionEnabled : Bool

/-- The body of `saveURL` up to the catch: compress when enabled, put into
the `urls` store when the database is available (`fault` models a rejected
transaction), then mirror to the memory cache and to `localStorage`. -/
def saveURLBody (s : SMState) (fault : Bool) (urlData : JVal) :
    Except Unit (Bool × SMState) :=
  let compressedData := saveTransform s.compressionEnabled urlData
  let step : Except Unit (Option DB) :=
    match s.db with
    | none => .ok none
    | some db =>
      if fault then .error ()
      else
        match putRec db.urls "id" compressedData with
        | .error e => .error e
        | .ok u => .ok (some { db with urls := u })
  match step with
  | .error e => .error e
  | .ok db2 =>
    let k := tmpl (getField urlData "id")
    .ok (true,
      { s with
          db := db2
          cache := alistSet s.cache ("url_" ++ k) compressedData
          localStore := alistSet s.localStore ("urls_" ++ k) (.ser compressedData) })

/-- `saveURL`: the body wrapped in the catch that converts any storage
exception into a `false` return (the failure is only logged). -/
def saveURL (s : SMState) (fault : Bool) (urlData : JVal) : Bool × SMState :=
  match saveURLBody s fault urlData with
  | .ok res => res
  | .error _ => (false, s)

/-- The `localStorage` leg of `getURL`: parse the backup under
`urls_<id>`, and on a truthy parse populate the memory cache and return it
(without any decompression). -/
def getURLLocal (s : SMState) (id : JKey) : Option JVal × SMState :=
  match alistGet s.localStore ("urls_" ++ jkeyStr id) with
  | some (.ser v) =>
      if truthy v then
        (some v, { s with cache := alistSet s.cache ("url_" ++ jkeyStr id) v })
      else (none, s)
  | _ => (none, s)

/-- `getURL`: memory cache first (conditionally decompressing), then the
structured store (populating the cache), then the `localStorage` fallback,
else `null`. -/
def getURL (s : SMState) (id : JKey) : Option JVal × SMState :=
  let cacheKey := "url_" ++ jkeyStr id
  match alistGet s.cache cacheKey with
  | some data => (some (readTransform s.compressionEnabled data), s)
  | none =>
    match s.db with
    | some db =>
      match getRecord db.urls "id" id with
      | some data =>
          if truthy data then
            (some (readTransform s.compressionEnabled data),
             { s with cache := alistSet s.cache cacheKey data })
          else getURLLocal s id
      | none => getURLLocal s id
    | none => getURLLocal s id

/-- The `localStorage` leg of `getAllURLs`: every truthy parse of an entry
whose key starts with `urls_`. -/
def getAllURLsLocal (s : SMState) : List JVal :=
  (s.localStore.filter (fun kv => kv.1.startsWith "urls_")).filterMap
    (fun kv =>
      match kv.2 with
      | .ser v => if truthy v then some v else none
      | .malformed _ => none)

/-- `getAllURLs`: scan the `urls` store when available and non-empty, caching
each record and conditionally decompressing the result; otherwise scan the
`localStorage` backups by prefix. -/
def getAllURLs (s : SMState) : List JVal × SMState :=
  match s.db with
  | some db =>
    if db.urls.isEmpty then (getAllURLsLocal s, s)
    else
      let cache2 := db.urls.foldl
        (fun c u => alistSet c ("url_" ++ tmpl (getField u "id")) u) s.cache
      ((if s.compressionEnabled then db.urls.map decompressData else db.urls),
       { s with cache := cache2 })
  | none => (getAllURLsLocal s, s)

/-- `deleteURL`: delete from the `urls` store (when available; `fault` models
a rejected transaction caught as `false`), the memory cache and
`localStorage`; returns `true` whether or not a record existed. -/
def deleteURL (s : SMState) (fault : Bool) (id : JKey) : Bool × SMState :=
  match s.db with
  | some db =>
    if fault then (false, s)
    else
      (true,
       { s with
           db := some { db with urls := delRec db.urls "id" id }
           cache := alistRemove s.cache ("url_" ++ jkeyStr id)
           localStore := alistRemove s.localStore ("urls_" ++ jkeyStr id) })
  | none =>
      (true,
       { s with
           cache := alistRemove s.cache ("url_" ++ jkeyStr id)
           localStore := alistRemove s.localStore ("urls_" ++ jkeyStr id) })

/-- `saveSetting`: wrap the value with its key and a timestamp, put it into
the `settings` store, and mirror the raw value to the memory cache and to
`localStorage` under `setting_<key>`. -/
def saveSetting (s : SMState) (now : Int) (key : String) (value : JVal) :
    Bool × SMState :=
  let data := JVal.obj [("key", .str key), ("value", value), ("timestamp", .num now)]
  match s.db with
  | some db =>
    match putRec db.settings "key" data with
    | .ok st =>
        (true,
         { s with
             db := some { db with settings := st }
             cache := alistSet s.cache ("setting_" ++ key) value
             localStore := alistSet s.localStore ("setting_" ++ key) (.ser value) })
    | .error _ => (false, s)
  | none =>
      (true,
       { s with
           cache := alistSet s.cache ("setting_" ++ key) value
           localStore := alistSet s.localStore ("setting_" ++ key) (.ser value) })

/-- `setCache`: build the cache record with creation timestamp and absolute
expiry `now + ttl`, put it into the `cache` store when available, and store
the raw payload in the memory cache. -/
def setCache (s : SMState) (now : Int) (key : String) (data : JVal)
    (ttl : Int) : Bool × SMState :=
  let cacheData := JVal.obj
    [("key", .str key), ("data", data), ("timestamp", .num now),
     ("expiry", .num (now + ttl))]
  match s.db with
  | some db =>
    match putRec db.cacheStore "key" cacheData with
    | .ok cs =>
        (true,
         { s with
             db := some { db with cacheStore := cs }
             cache := alistSet s.cache key data })
    | .error _ => (false, s)
  | none => (true, { s with cache := alistSet s.cache key data })

/-- The strict-future test `cacheData.expiry > Date.now()` of `getCache`
(false when the field is missing or non-numeric, as the JS comparison is). -/
def expiryGT (r : JVal) (now : Int) : Bool :=
  match getField r "expiry" with
  | some (.num e) => now < e
  | _ => false

/-- `getCache`: the memory cache is consulted first and returns its payload
with no expiry check; only on a memory miss is the durable record validated
against `expiry`, self-evicting when stale. -/
def getCache (s : SMState) (now : Int) (key : String) : Option JVal × SMState :=
  match alistGet s.cache key with
  | some v => (some v, s)
  | none =>
    match s.db with
    | none => (none, s)
    | some db =>
      match getRecord db.cacheStore "key" (.str key) with
      | none => (none, s)
      | some cacheData =>
        if expiryGT cacheData now then
          (some (fieldD cacheData "data"),
           { s with cache := alistSet s.cache key (fieldD cacheData "data") })
        else
          (none,
           { s with db := some { db with cacheStore := delRec db.cacheStore "key" (.str key) } })

/-- Membership test of the `expiry`-index range scan bounded above by `now`
(`IDBKeyRange.upperBound` is inclusive; records without a numeric expiry are
not in the index). -/
def expiredLE (now : Int) (r : JVal) : Bool :=
  match getField r "expiry" with
  | some (.num e) => e ≤ now
  | _ => false

/-- `clearExpiredCache`: with no database it returns `undefined` (modelled
`none`); otherwise it deletes every `cache` record whose expiry is at or
below `now` via the expiry index and returns the count deleted. -/
def clearExpiredCache (s : SMState) (now : Int) : Option Nat × SMState :=
  match s.db with
  | none => (none, s)
  | some db =>
    let deleted := db.cacheStore.filter (expiredLE now)
    (some deleted.length,
     { s with db := some { db with cacheStore := db.cacheStore.filter (fun r => !expiredLE now r) } })

/-- Membership test of the 30-day `timestamp`-index range scan of
`cleanupSecurityLogs`. -/
def agedLE (now : Int) (r : JVal) : Bool :=
  match getField r "timestamp" with
  | some (.num t) => t ≤ now - 2592000000
  | _ => false

/-- `cleanupSecurityLogs`: delete every security log whose timestamp is at
least 30 days old, returning the count (0 with no database). -/
def cleanupSecurityLogs (s : SMState) (now : Int) : Nat × SMState :=
  match s.db with
  | none => (0, s)
  | some db =>
    ((db.security.filter (agedLE now)).length,
     { s with db := some { db with security := db.security.filter (fun r => !agedLE now r) } })

/-- Numeric `timestamp` of a security log (the only entries visible to its
timestamp index in this application). -/
def tsNum (r : JVal) : Option Int :=
  match getField r "timestamp" with
  | some (.num t) => some t
  | _ => none

/-- Descending (timestamp, id) order of the reverse cursor over the
`timestamp` index of the `security` store. -/
def secLe (a b : JVal) : Bool :=
  match tsNum a, tsNum b with
  | some ta, some tb =>
    if ta == tb then
      match keyOf a "id", keyOf b "id" with
      | some (.num x), some (.num y) => y ≤ x
      | some (.num _), _ => true
      | _, _ => false
    else tb ≤ ta
  | _, _ => false

/-- `getSecurityLogs limit`: the `limit` most recent security logs, most
recent first (empty with no database). -/
def getSecurityLogs (s : SMState) (limit : Nat) : List JVal :=
  match s.db with
  | none => []
  | some db =>
    ((db.security.filter (fun r => (tsNum r).isSome)).insertionSort
        (fun a b => secLe a b = true)).take limit

/-- The result record of `optimizeStorage` (`spaceFreed` is initialized and
never updated by the source). -/
structure OptResults where
  cacheCleared : Option Nat
  expiredEntriesRemoved : Nat
  spaceFreed : Nat

/-- The re-save pass of `optimizeStorage`: re-save every loaded record that
does not yet carry the compression marker while compression is enabled. -/
def optReSave (urls : List JVal) (st : SMState) : SMState :=
  urls.foldl
    (fun st u =>
      if !truthy (fieldD u "_compressed") && st.compressionEnabled then
        (saveURL st false u).2
      else st) st

/-- `optimizeStorage`: clear expired cache entries, cap the retained security
logs at the 1000 most recent of the first 2000 fetched, then lazily
re-compress the `urls` records. -/
def optimizeStorage (s : SMState) (now : Int) : OptResults × SMState :=
  let p1 := clearExpiredCache s now
  let p2 :=
    match p1.2.db with
    | none => (0, p1.2)
    | some db =>
      let logs := getSecurityLogs p1.2 2000
      if 1000 < logs.length then
        let toRemove := logs.drop 1000
        let ids := toRemove.filterMap (fun r => keyOf r "id")
        let sec2 := db.security.filter
          (fun r =>
            match keyOf r "id" with
            | some k => !ids.contains k
            | none => true)
        (toRemove.length, { p1.2 with db := some { db with security := sec2 } })
      else (0, p1.2)
  let pAll := getAllURLs p2.2
  let s4 := optReSave pAll.1 pAll.2
  ({ cacheCleared := p1.1, expiredEntriesRemoved := p2.1, spaceFreed := 0 }, s4)

/-- The combined result of `performMaintenance`. -/
structure MaintResults where
  cacheCleared : Option Nat
  logsCleanedUp : Nat
  optimizationResults : OptResults

/-- `performMaintenance`: the periodic entry point composing expiry clearing,
security-log pruning and storage optimization. -/
def performMaintenance (s : SMState) (now : Int) : MaintResults × SMState :=
  let p1 := clearExpiredCache s now
  let p2 := cleanupSecurityLogs p1.2 now
  let p3 := optimizeStorage p2.2 now
  ({ cacheCleared := p1.1, logsCleanedUp := p2.1, optimizationResults := p3.1 },
   p3.2)

/-- Does a character list start with the given pattern? -/
def listStarts : List Char → List Char → Bool
  | _, [] => true
  | [], _ :: _ => false
  | c :: cs, p :: ps => c == p && listStarts cs ps

/-- Does a character list contain the given pattern as a contiguous run? -/
def listHasRun : List Char → List Char → Bool
  | [], pat => pat.isEmpty
  | c :: cs, pat => listStarts (c :: cs) pat || listHasRun cs pat

/-- Substring test `String.prototype.includes`. -/
def strContains (s pat : String) : Bool :=
  listHasRun s.data pat.data

/-- The fixed list of legacy `localStorage` keys consumed by migration. -/
def legacyKeys : List String :=
  ["urlShortener_urls", "secureUrlShortener_urls",
   "urlShortener_rateLimit", "secureUrlShortener_rateLimit",
   "urlShortener_securityStats", "secureUrlShortener_securityStats"]

/-- One legacy key of `migrateFromOldStorage`: a present, parseable value is
imported (URL-list keys element-wise through `saveURL`, counting each;
rate-limit and security-stats keys through `saveSetting`) and the legacy key
is then removed; a parse failure leaves the key in place and migrates
nothing. -/
def migStep (now : Int) (acc : Nat × SMState) (key : String) : Nat × SMState :=
  match alistGet acc.2.localStore key with
  | none => acc
  | some (.malformed _) => acc
  | some (.ser v) =>
    let imported : Nat × SMState :=
      if strContains key "urls" then
        match v with
        | .arr items =>
            items.foldl (fun a u => (a.1 + 1, (saveURL a.2 false u).2)) (0, acc.2)
        | _ => (0, acc.2)
      else if strContains key "rateLimit" then
        (1, (saveSetting acc.2 now "rateLimit" v).2)
      else if strContains key "securityStats" then
        (1, (saveSetting acc.2 now "securityStats" v).2)
      else (0, acc.2)
    (acc.1 + imported.1,
     { imported.2 with localStore := alistRemove imported.2.localStore key })

/-- `migrateFromOldStorage`: fold the migration step over the fixed legacy
key list, returning the total number of migrated items. -/
def migrateFromOldStorage (s : SMState) (now : Int) : Nat × SMState :=
  legacyKeys.foldl (migStep now) (0, s)

/-- Loss of one memory-cache entry (page reload / fresh session): the memory
cache is a volatile, rebuildable projection. -/
def evictMem (s : SMState) (k : String) : SMState :=
  { s with cache := alistRemove s.cache k }

/-- Number of fields of a stored object. -/
def numFields : JVal → Nat
  | .obj fs => fs.length
  | _ => 0

/-- The `urls` partition of the structured store (empty when unavailable). -/
def dbUrls (s : SMState) : List JVal :=
  match s.db with
  | some db => db.urls
  | none => []

/-- The `analytics` partition of the structured store. -/
def dbAnalytics (s : SMState) : List JVal :=
  match s.db with
  | some db => db.analytics
  | none => []

/-- The `security` partition of the structured store. -/
def dbSecurity (s : SMState) : List JVal :=
  match s.db with
  | some db => db.security
  | none => []

/-- The `settings` partition of the structured store. -/
def dbSettings (s : SMState) : List JVal :=
  match s.db with
  | some db => db.settings
  | none => []

/-- The `cache` partition of the structured store. -/
def dbCacheStore (s : SMState) : List JVal :=
  match s.db with
  | some db => db.cacheStore
  | none => []

/-- The primary keys present in the `urls` partition. -/
def urlIds (s : SMState) : List (Option JKey) :=
  (dbUrls s).map (fun r => keyOf r "id")

/-- A security record's timestamp is absent or numeric (string-keyed
timestamps never occur in this application's security logs). -/
def tsOk (r : JVal) : Bool :=
  match getField r "timestamp" with
  | none => true
  | some (.num _) => true
  | some _ => false

/-- Well-formedness of the `security` store contents as IndexedDB maintains
it: every record has a valid primary key, timestamps are numeric when
present, and primary keys are unique. -/
def wfSecurity (recs : List JVal) : Bool :=
  recs.all (fun r => (keyOf r "id").isSome && tsOk r) &&
  decide ((recs.map (fun r => keyOf r "id")).Nodup)

/-- The security logs beyond the retained-count cap: of the 2000 most recent
logs, those ranked below the 1000 most recent (the set the count-based prune
of `optimizeStorage` deletes). -/
def capDrop (sec : List JVal) : List JVal :=
  let logs := ((sec.filter (fun r => (tsNum r).isSome)).insertionSort
      (fun a b => secLe a b = true)).take 2000
  if 1000 < logs.length then logs.drop 1000 else []

/-- No parseable value is stored in the fallback store under this key (the
key is absent or its value fails `JSON.parse`). -/
def noSer (s : SMState) (k : String) : Prop :=
  ∀ v, alistGet s.localStore k ≠ some (.ser v)

/-- A sample plain URL record. -/
def sampleRec : JVal :=
  .obj [("id", .num 1), ("shortCode", .str "abc123"), ("clicks", .num 0)]

/-- The sample record after a click-count update. -/
def sampleRec5 : JVal :=
  .obj [("id", .num 1), ("shortCode", .str "abc123"), ("clicks", .num 5)]

/-- A record that already carries the three compression bookkeeping fields. -/
def markedRec : JVal :=
  .obj [("_compressed", .bool true), ("_originalSize", .num 3),
        ("_compressedSize", .num 3)]

/-- A freshly created empty database. -/
def emptyDB : DB := ⟨[], [], [], [], []⟩

/-- A fresh manager state with an empty database and compression on. -/
def initState : SMState := ⟨some emptyDB, [], [], true⟩

/-- A manager state degraded to fallback-only mode. -/
def noDbState : SMState := ⟨none, [], [], true⟩

/-- A state whose memory cache holds a compressed record while the
compression toggle is off. -/
def c3State : SMState := ⟨none, [("url_1", compressData sampleRec)], [], false⟩

/-- A cache record expiring at time 50. -/
def cacheRecA : JVal :=
  .obj [("key", .str "a"), ("data", .num 1), ("timestamp", .num 0),
        ("expiry", .num 50)]

/-- A cache record expiring at time 500. -/
def cacheRecB : JVal :=
  .obj [("key", .str "b"), ("data", .num 2), ("timestamp", .num 0),
        ("expiry", .num 500)]

/-- A state whose cache partition holds one expired and one live entry. -/
def c6State : SMState :=
  ⟨some ⟨[], [], [], [], [cacheRecA, cacheRecB]⟩, [], [], true⟩

/-- A sample security log record. -/
def secRec : JVal :=
  .obj [("id", .num 10), ("timestamp", .num 100), ("type", .str "scan")]

/-- A populated state for exercising maintenance. -/
def c8State : SMState :=
  ⟨some ⟨[compressData sampleRec], [], [secRec], [], [cacheRecA]⟩, [], [], true⟩

/-- A state holding the sample record in every tier. -/
def delState : SMState :=
  ⟨some ⟨[compressData sampleRec], [], [], [], []⟩,
   [("url_1", compressData sampleRec)],
   [("urls_1", .ser (compressData sampleRec))], true⟩

/-- How many records of a `urls` store carry the given primary key. -/
def countKey (l : List JVal) (k : JKey) : Nat :=
  (l.filter (fun x => keyOf x "id" == some k)).length

section AListLemmas

variable {α : Type}

theorem alistGet_nil (k : String) : alistGet ([] : List (String × α)) k = none := rfl

theorem alistGet_cons (kv : String × α) (l : List (String × α)) (k : String) :
    alistGet (kv :: l) k = if kv.1 = k then some kv.2 else alistGet l k := by
  by_cases h : kv.1 = k
  · have hb : (kv.1 == k) = true := by simp [h]
    simp [alistGet, List.find?_cons, hb, h]
  · have hb : (kv.1 == k) = false := by simp [h]
    simp [alistGet, List.find?_cons, hb, h]

theorem alistSet_cons (kv : String × α) (l : List (String × α)) (k : String) (v : α) :
    alistSet (kv :: l) k v =
      if kv.1 = k then (k, v) :: l else kv :: alistSet l k v := by
  by_cases h : kv.1 = k
  · have hb : (kv.1 == k) = true := by simp [h]
    simp [alistSet, hb, h]
  · have hb : (kv.1 == k) = false := by simp [h]
    simp [alistSet, hb, h]

theorem alistRemove_nil (k : String) :
    alistRemove ([] : List (String × α)) k = [] := rfl

theorem alistRemove_cons (kv : String × α) (l : List (String × α)) (k : String) :
    alistRemove (kv :: l) k =
      if kv.1 = k then alistRemove l k else kv :: alistRemove l k := by
  by_cases h : kv.1 = k
  · have hb : (kv.1 == k) = true := by simp [h]
    simp [alistRemove, List.filter_cons, hb, h]
  · have hb : (kv.1 == k) = false := by simp [h]
    simp [alistRemove, List.filter_cons, hb, h]

theorem alistGet_set_self (l : List (String × α)) (k : String) (v : α) :
    alistGet (alistSet l k v) k = some v := by
  induction l with
  | nil => simp [alistSet, alistGet_cons]
  | cons kv rest ih =>
    rw [alistSet_cons]
    by_cases h : kv.1 = k
    · simp [h, alistGet_cons]
    · simp [h, alistGet_cons, ih]

theorem alistGet_set_ne (l : List (String × α)) (k k2 : String) (v : α)
    (h : k2 ≠ k) : alistGet (alistSet l k v) k2 = alistGet l k2 := by
  induction l with
  | nil => simp [alistSet, alistGet_cons, alistGet_nil, Ne.symm h]
  | cons kv rest ih =>
    rw [alistSet_cons]
    by_cases hk : kv.1 = k
    · rw [if_pos hk]
      simp [alistGet_cons, hk, Ne.symm h]
    · rw [if_neg hk]
      simp [alistGet_cons, ih]

theorem alistGet_remove_self (l : List (String × α)) (k : String) :
    alistGet (alistRemove l k) k = none := by
  induction l with
  | nil => simp [alistRemove_nil, alistGet_nil]
  | cons kv rest ih =>
    rw [alistRemove_cons]
    by_cases h : kv.1 = k
    · simp [h, ih]
    · simp [h, alistGet_cons, ih]

theorem alistGet_remove_ne (l : List (String × α)) (k k2 : String)
    (h : k2 ≠ k) : alistGet (alistRemove l k) k2 = alistGet l k2 := by
  induction l with
  | nil => simp [alistRemove_nil]
  | cons kv rest ih =>
    rw [alistRemove_cons]
    by_cases hk : kv.1 = k
    · rw [if_pos hk, ih, alistGet_cons, hk, if_neg (Ne.symm h)]
    · rw [if_neg hk]
      simp [alistGet_cons, ih]

theorem alistSet_append_of_absent (l : List (String × α)) (k : String) (v : α)
    (h : ∀ kv ∈ l, kv.1 ≠ k) : alistSet l k v = l ++ [(k, v)] := by
  induction l with
  | nil => simp [alistSet]
  | cons kv rest ih =>
    have h1 : kv.1 ≠ k := h kv (by simp)
    rw [alistSet_cons, if_neg h1, ih (fun x hx => h x (by simp [hx]))]
    simp

end AListLemmas

section StoreLemmas

theorem getRecord_upsert_self (l : List JVal) (path : String) (k : JKey)
    (r : JVal) (h : keyOf r path = some k) :
    getRecord (upsertRecs l path k r) path k = some r := by
  induction l with
  | nil => simp [upsertRecs, getRecord, List.find?_cons, h]
  | cons x xs ih =>
    by_cases hx : keyOf x path = some k
    · have hb : (keyOf x path == some k) = true := by simp [hx]
      simp [upsertRecs, hb, getRecord, List.find?_cons, h]
    · have hb : (keyOf x path == some k) = false := by simp [hx]
      simpa [upsertRecs, hb, getRecord, List.find?_cons] using ih

theorem getRecord_delRec_self (l : List JVal) (path : String) (k : JKey) :
    getRecord (delRec l path k) path k = none := by
  induction l with
  | nil => simp [delRec, getRecord]
  | cons x xs ih =>
    by_cases hx : keyOf x path = some k
    · have hb : (keyOf x path == some k) = true := by simp [hx]
      simp only [delRec, getRecord, List.filter_cons, hb, Bool.not_true, if_false]
      exact ih
    · have hb : (keyOf x path == some k) = false := by simp [hx]
      simp only [delRec, getRecord, List.filter_cons, List.find?_cons, hb,
        Bool.not_false, if_true]
      exact ih

theorem keysOf_upsert_eq (l : List JVal) (path : String) (k : JKey) (r : JVal)
    (h : keyOf r path = some k) :
    (upsertRecs l path k r).map (fun x => keyOf x path) =
      if some k ∈ l.map (fun x => keyOf x path) then
        l.map (fun x => keyOf x path)
      else l.map (fun x => keyOf x path) ++ [some k] := by
  induction l with
  | nil => simp [upsertRecs, h]
  | cons x xs ih =>
    by_cases hx : keyOf x path = some k
    · have hb : (keyOf x path == some k) = true := by simp [hx]
      simp [upsertRecs, hb, hx, h]
    · have hb : (keyOf x path == some k) = false := by simp [hx]
      by_cases hm : some k ∈ xs.map (fun x => keyOf x path)
      · simp [upsertRecs, hb, ih, hm, Ne.symm hx]
      · simp [upsertRecs, hb, ih, hm, Ne.symm hx]

theorem keysOf_upsert_superset (l : List JVal) (path : String) (k : JKey)
    (r : JVal) (h : keyOf r path = some k) :
    ∀ x ∈ l.map (fun x => keyOf x path),
      x ∈ (upsertRecs l path k r).map (fun x => keyOf x path) := by
  intro x hx
  rw [keysOf_upsert_eq l path k r h]
  by_cases hm : some k ∈ l.map (fun x => keyOf x path)
  · simpa [hm] using hx
  · simp only [hm, if_false, List.mem_append]
    exact Or.inl hx

end StoreLemmas

section CompressLemmas

theorem isMarker_false_ne (k : String) (h : isMarker k = false) :
    k ≠ "_compressed" ∧ k ≠ "_originalSize" ∧ k ≠ "_compressedSize" := by
  simp only [isMarker, Bool.or_eq_false_iff, beq_eq_false_iff_ne] at h
  exact ⟨h.1.1, h.1.2, h.2⟩

theorem alistGet_append_of_absent {α : Type} (l l2 : List (String × α))
    (k : String) (h : ∀ kv ∈ l, kv.1 ≠ k) :
    alistGet (l ++ l2) k = alistGet l2 k := by
  induction l with
  | nil => simp
  | cons kv rest ih =>
    rw [List.cons_append, alistGet_cons, if_neg (h kv (by simp))]
    exact ih (fun x hx => h x (by simp [hx]))

theorem getField_compress_obj (fs : List (String × JVal)) (k : String)
    (h : isMarker k = false) :
    getField (compressData (.obj fs)) k = alistGet fs k := by
  obtain ⟨h1, h2, h3⟩ := isMarker_false_ne k h
  simp only [compressData, getField, spreadFields]
  rw [alistGet_set_ne _ _ _ _ h3, alistGet_set_ne _ _ _ _ h2,
    alistGet_set_ne _ _ _ _ h1]

theorem compress_fields_of_plain (fs : List (String × JVal))
    (hall : ∀ kv ∈ fs, isMarker kv.1 = false) (ov cv sv : JVal) :
    alistSet (alistSet (alistSet fs "_compressed" cv) "_originalSize" ov)
        "_compressedSize" sv =
      fs ++ [("_compressed", cv), ("_originalSize", ov), ("_compressedSize", sv)] := by
  have habs1 : ∀ kv ∈ fs, kv.1 ≠ "_compressed" :=
    fun kv hkv => (isMarker_false_ne kv.1 (hall kv hkv)).1
  have habs2 : ∀ kv ∈ fs ++ [("_compressed", cv)], kv.1 ≠ "_originalSize" := by
    intro kv hkv
    rcases List.mem_append.mp hkv with hl | hr
    · exact (isMarker_false_ne kv.1 (hall kv hl)).2.1
    · simp only [List.mem_singleton] at hr
      subst hr
      show "_compressed" ≠ "_originalSize"
      decide
  have habs3 : ∀ kv ∈ (fs ++ [("_compressed", cv)]) ++ [("_originalSize", ov)],
      kv.1 ≠ "_compressedSize" := by
    intro kv hkv
    rcases List.mem_append.mp hkv with hl | hr
    · exact habs2 kv hl |> fun _ => by
        rcases List.mem_append.mp hl with hll | hlr
        · exact (isMarker_false_ne kv.1 (hall kv hll)).2.2
        · simp only [List.mem_singleton] at hlr
          subst hlr
          show "_compressed" ≠ "_compressedSize"
          decide
    · simp only [List.mem_singleton] at hr
      subst hr
      show "_originalSize" ≠ "_compressedSize"
      decide
  rw [alistSet_append_of_absent _ _ _ habs1,
    alistSet_append_of_absent _ _ _ habs2,
    alistSet_append_of_absent _ _ _ habs3]
  simp

theorem decompress_append_markers (fs : List (String × JVal))
    (hall : ∀ kv ∈ fs, isMarker kv.1 = false) (ov sv : JVal) :
    decompressData (.obj (fs ++
        [("_compressed", .bool true), ("_originalSize", ov),
         ("_compressedSize", sv)])) = .obj fs := by
  have habs1 : ∀ kv ∈ fs, kv.1 ≠ "_compressed" :=
    fun kv hkv => (isMarker_false_ne kv.1 (hall kv hkv)).1
  have hmark : getField (JVal.obj (fs ++
      [("_compressed", .bool true), ("_originalSize", ov),
       ("_compressedSize", sv)])) "_compressed" = some (.bool true) := by
    simp only [getField]
    rw [alistGet_append_of_absent _ _ _ habs1, alistGet_cons]
    simp
  simp only [decompressData, truthy, fieldD, hmark, Option.getD_some, Bool.and_self,
    if_true]
  congr 1
  rw [List.filter_append]
  have hfs : fs.filter (fun kv => !isMarker kv.1) = fs :=
    List.filter_eq_self.mpr (fun kv hkv => by simp [hall kv hkv])
  rw [hfs]
  have hm1 : isMarker "_compressed" = true := by decide
  have hm2 : isMarker "_originalSize" = true := by decide
  have hm3 : isMarker "_compressedSize" = true := by decide
  simp [List.filter_cons, hm1, hm2, hm3]

theorem decompress_compress (r : JVal) (h : plainRecord r = true) :
    decompressData (compressData r) = r := by
  match r, h with
  | .obj fs, h =>
    have hall : ∀ kv ∈ fs, isMarker kv.1 = false := by
      simpa [plainRecord, List.all_eq_true] using h
    show decompressData (.obj (alistSet (alistSet (alistSet fs
        "_compressed" (.bool true))
        "_originalSize" (.num ((stringify (.obj fs)).length : Int)))
        "_compressedSize" _)) = .obj fs
    rw [compress_fields_of_plain fs hall]
    exact decompress_append_markers fs hall _ _

end CompressLemmas

section ClaimC2

/-- C2: for every valid (plain) URL record `r`, `decompressData (compressData
r)` equals `r` field-for-field — every original field reconstructed, the
bookkeeping fields stripped — and with compression toggled off both the
save-side and the read-side transforms are the identity on `r`. -/
theorem claim2_compress_roundtrip (r : JVal) (h : plainRecord r = true) :
    decompressData (compressData r) = r ∧
    saveTransform false r = r ∧ readTransform false r = r :=
  ⟨decompress_compress r h, rfl, rfl⟩

/-- Witness for C2 at a concrete URL record. -/
theorem claim2_compress_roundtrip_witness :
    decompressData (compressData sampleRec) = sampleRec ∧
    saveTransform false sampleRec = sampleRec ∧
    readTransform false sampleRec = sampleRec :=
  claim2_compress_roundtrip sampleRec (by decide)

end ClaimC2

section ClaimC9

/-- C9 counterexample: a record that already carries the three bookkeeping
fields does not grow under `compressData` — the fields are overwritten in
place — refuting the claimed strict growth for every record. -/
theorem claim9_counterexample :
    numFields (compressData markedRec) = numFields markedRec ∧
    ¬ numFields markedRec < numFields (compressData markedRec) := by
  constructor
  · decide
  · decide

/-- C9 amended: `compressData` keeps the value of every non-bookkeeping
field and never decreases the field count; on a record that carries none of
the three bookkeeping fields (every valid URL record) it adds exactly the
three metadata fields, strictly growing the object; a record already
carrying them is not grown — the fields are overwritten in place. -/
theorem claim9_never_smaller (fs : List (String × JVal)) :
    numFields (.obj fs) ≤ numFields (compressData (.obj fs)) ∧
    (∀ k, isMarker k = false →
      getField (compressData (.obj fs)) k = getField (.obj fs) k) ∧
    (plainRecord (.obj fs) = true →
      numFields (compressData (.obj fs)) = numFields (.obj fs) + 3) := by
  refine ⟨?_, ?_, ?_⟩
  · have hle : ∀ (l : List (String × JVal)) (k : String) (v : JVal),
        l.length ≤ (alistSet l k v).length := by
      intro l k v
      induction l with
      | nil => simp [alistSet]
      | cons kv rest ih =>
        rw [alistSet_cons]
        by_cases h : kv.1 = k
        · simp [h]
        · simpa [h] using ih
    calc fs.length ≤ (alistSet fs "_compressed" (.bool true)).length := hle _ _ _
      _ ≤ (alistSet (alistSet fs "_compressed" (.bool true)) "_originalSize"
            (.num ((stringify (.obj fs)).length : Int))).length := hle _ _ _
      _ ≤ _ := hle _ _ _
  · intro k hk
    exact getField_compress_obj fs k hk
  · intro h
    have hall : ∀ kv ∈ fs, isMarker kv.1 = false := by
      simpa [plainRecord, List.all_eq_true] using h
    show (alistSet (alistSet (alistSet fs "_compressed" (.bool true))
        "_originalSize" _) "_compressedSize" _).length = fs.length + 3
    rw [compress_fields_of_plain fs hall]
    simp

/-- Witness for the amended C9 at a concrete record and field. -/
theorem claim9_never_smaller_witness :
    numFields sampleRec ≤ numFields (compressData sampleRec) ∧
    getField (compressData sampleRec) "id" = getField sampleRec "id" ∧
    numFields (compressData sampleRec) = numFields sampleRec + 3 := by
  obtain ⟨a, b, c⟩ :=
    claim9_never_smaller
      [("id", .num 1), ("shortCode", .str "abc123"), ("clicks", .num 0)]
  exact ⟨a, b "id" (by decide), c (by decide)⟩

end ClaimC9

section ClaimC5

/-- C5: `saveURL` never raises to the caller: the boolean it returns is
exactly the success of its body, and whenever the body raises a storage
exception the catch converts it into a `false` return with the state
unchanged — the failure is only logged. -/
theorem claim5_save_never_raises (s : SMState) (fault : Bool) (r : JVal) :
    (saveURL s fault r).1 = (saveURLBody s fault r).isOk ∧
    ((saveURLBody s fault r).isOk = false → saveURL s fault r = (false, s)) := by
  cases hdb : s.db with
  | none => simp [saveURL, saveURLBody, hdb, Except.isOk, Except.toBool]
  | some db =>
    cases fault with
    | true => simp [saveURL, saveURLBody, hdb, Except.isOk, Except.toBool]
    | false =>
      cases hput : putRec db.urls "id" (saveTransform s.compressionEnabled r) with
      | ok u => simp [saveURL, saveURLBody, hdb, hput, Except.isOk, Except.toBool]
      | error e => simp [saveURL, saveURLBody, hdb, hput, Except.isOk, Except.toBool]

/-- Witness for C5 at a concrete faulting save. -/
theorem claim5_save_never_raises_witness :
    (saveURL initState true sampleRec).1 = (saveURLBody initState true sampleRec).isOk ∧
    saveURL initState true sampleRec = (false, initState) := by
  obtain ⟨a, b⟩ := claim5_save_never_raises initState true sampleRec
  exact ⟨a, b (by decide)⟩

end ClaimC5

section ClaimC10

/-- C10: a fault-free `deleteURL` returns `true` for every id — whether or
not a record exists in any tier — and afterwards the memory cache, the
fallback store and the structured store hold nothing under that id. -/
theorem claim10_delete_idempotent (s : SMState) (id : JKey) :
    (deleteURL s false id).1 = true ∧
    alistGet (deleteURL s false id).2.cache ("url_" ++ jkeyStr id) = none ∧
    alistGet (deleteURL s false id).2.localStore ("urls_" ++ jkeyStr id) = none ∧
    (∀ db2, (deleteURL s false id).2.db = some db2 →
      getRecord db2.urls "id" id = none) := by
  cases hdb : s.db with
  | none =>
    refine ⟨?_, ?_, ?_, ?_⟩ <;>
      simp [deleteURL, hdb, alistGet_remove_self, getRecord_delRec_self]
  | some db =>
    refine ⟨?_, ?_, ?_, ?_⟩ <;>
      simp [deleteURL, hdb, alistGet_remove_self, getRecord_delRec_self]

/-- Witness for C10 at a concrete state holding the record in every tier. -/
theorem claim10_delete_idempotent_witness :
    (deleteURL delState false (.num 1)).1 = true ∧
    alistGet (deleteURL delState false (.num 1)).2.cache
      ("url_" ++ jkeyStr (.num 1)) = none ∧
    alistGet (deleteURL delState false (.num 1)).2.localStore
      ("urls_" ++ jkeyStr (.num 1)) = none ∧
    getRecord (delRec [compressData sampleRec] "id" (.num 1)) "id" (.num 1) = none := by
  obtain ⟨a, b, c, d⟩ := claim10_delete_idempotent delState (.num 1)
  exact ⟨a, b, c, d ⟨delRec [compressData sampleRec] "id" (.num 1), [], [], [], []⟩ rfl⟩

end ClaimC10

section ClaimC6

/-- C6 counterexample: with the structured store unavailable
`clearExpiredCache` returns `undefined` (modelled `none`), not the
removed-entry count `0` the claim requires in every case. -/
theorem claim6_counterexample :
    (clearExpiredCache noDbState 100).1 = none ∧
    (clearExpiredCache noDbState 100).1 ≠ some 0 :=
  ⟨rfl, by decide⟩

/-- C6 amended: with the structured store available `clearExpiredCache`
deletes exactly the cache-partition records whose expiry is at or below the
current time, returns their count, and changes nothing else — the urls,
analytics, security and settings partitions and the other tiers are left
unchanged; with the store unavailable it deletes nothing and returns
`undefined` (no count). -/
theorem claim6_clear_expired (s : SMState) (now : Int) :
    (∀ db, s.db = some db →
      (clearExpiredCache s now).1 =
        some ((db.cacheStore.filter (expiredLE now)).length) ∧
      (clearExpiredCache s now).2 =
        { s with db := some { db with
            cacheStore := db.cacheStore.filter (fun r => !expiredLE now r) } }) ∧
    (s.db = none → clearExpiredCache s now = (none, s)) := by
  constructor
  · intro db hdb
    simp [clearExpiredCache, hdb]
  · intro h
    simp [clearExpiredCache, h]

/-- Witness for the amended C6 at a concrete state with one expired and one
live cache entry. -/
theorem claim6_clear_expired_witness :
    (clearExpiredCache c6State 100).1 =
      some (([cacheRecA, cacheRecB].filter (expiredLE 100)).length) ∧
    (clearExpiredCache c6State 100).2 =
      { c6State with db := some { (⟨[], [], [], [], [cacheRecA, cacheRecB]⟩ : DB) with
          cacheStore := [cacheRecA, cacheRecB].filter (fun r => !expiredLE 100 r) } } :=
  (claim6_clear_expired c6State 100).1 ⟨[], [], [], [], [cacheRecA, cacheRecB]⟩ rfl

end ClaimC6

section ClaimC1

/-- C1 counterexample: a cache entry written at time 0 with TTL 10 is still
returned by `getCache` at time 20, well past its expiry instant — the memory
tier serves it with no expiry validation — refuting the claimed null return
at or after expiry. -/
theorem claim1_counterexample :
    (getCache (setCache initState 0 "k" (.str "v") 10).2 20 "k").1 =
      some (.str "v") := rfl

/-- C1 amended: for an entry written by `setCache` with TTL `t`, provided
the key is absent from the volatile memory cache at read time (for example
after a reload — the memory tier validates no expiry and would otherwise
serve the payload indefinitely), `getCache` returns the payload strictly
before the expiry instant `write time + t` and returns `null` at or after
it, evicting the entry from the durable cache partition; with the entry
still in the memory cache `getCache` returns the payload regardless of
expiry. -/
theorem claim1_cache_expiry (s : SMState) (db : DB) (now0 ttl now : Int)
    (k : String) (d : JVal) (hdb : s.db = some db) :
    ((getCache (evictMem (setCache s now0 k d ttl).2 k) now k).1 =
      if now < now0 + ttl then some d else none) ∧
    (now0 + ttl ≤ now →
      ∀ db2, (getCache (evictMem (setCache s now0 k d ttl).2 k) now k).2.db = some db2 →
        getRecord db2.cacheStore "key" (.str k) = none) ∧
    (getCache (setCache s now0 k d ttl).2 now k).1 = some d := by
  have hkey : keyOf (JVal.obj [("key", .str k), ("data", d),
      ("timestamp", .num now0), ("expiry", .num (now0 + ttl))]) "key" =
      some (.str k) := by
    simp [keyOf, getField, alistGet_cons]
  have hexp : getField (JVal.obj [("key", .str k), ("data", d),
      ("timestamp", .num now0), ("expiry", .num (now0 + ttl))]) "expiry" =
      some (.num (now0 + ttl)) := by
    simp [getField, alistGet_cons]
  have hdata : getField (JVal.obj [("key", .str k), ("data", d),
      ("timestamp", .num now0), ("expiry", .num (now0 + ttl))]) "data" =
      some d := by
    simp [getField, alistGet_cons]
  have hget : getRecord (upsertRecs db.cacheStore "key" (.str k)
      (JVal.obj [("key", .str k), ("data", d), ("timestamp", .num now0),
        ("expiry", .num (now0 + ttl))])) "key" (.str k) =
      some (JVal.obj [("key", .str k), ("data", d), ("timestamp", .num now0),
        ("expiry", .num (now0 + ttl))]) :=
    getRecord_upsert_self _ _ _ _ hkey
  refine ⟨?_, ?_, ?_⟩
  · by_cases hlt : now < now0 + ttl
    · simp [setCache, hdb, putRec, hkey, evictMem, getCache,
        alistGet_remove_self, hget, expiryGT, hexp, fieldD, hdata, hlt]
    · simp [setCache, hdb, putRec, hkey, evictMem, getCache,
        alistGet_remove_self, hget, expiryGT, hexp, fieldD, hdata, hlt]
  · intro hle db2 hdb2
    have hlt : ¬ now < now0 + ttl := not_lt.mpr hle
    have hb : decide (now < now0 + ttl) = false := decide_eq_false hlt
    simp only [setCache, hdb, putRec, hkey, evictMem, getCache,
      alistGet_remove_self, hget, expiryGT, hexp, hb,
      Bool.false_eq_true, if_false] at hdb2
    cases hdb2
    exact getRecord_delRec_self _ _ _
  · simp [setCache, hdb, putRec, hkey, getCache, alistGet_set_self]

/-- Witness for the amended C1: a fresh-session read before expiry returns
the payload, a fresh-session read after expiry returns none and evicts, and
a stale memory-cache read still returns the payload. -/
theorem claim1_cache_expiry_witness :
    ((getCache (evictMem (setCache initState 0 "k" (.str "v") 10).2 "k") 5 "k").1 =
      if (5 : Int) < 0 + 10 then some (.str "v") else none) ∧
    ((getCache (evictMem (setCache initState 0 "k" (.str "v") 10).2 "k") 20 "k").1 =
      if (20 : Int) < 0 + 10 then some (.str "v") else none) ∧
    getRecord (DB.cacheStore ⟨[], [], [], [], []⟩) "key" (.str "k") = none ∧
    (getCache (setCache initState 0 "k" (.str "v") 10).2 20 "k").1 =
      some (.str "v") := by
  obtain ⟨a5, _, _⟩ :=
    claim1_cache_expiry initState emptyDB 0 10 5 "k" (.str "v") rfl
  obtain ⟨a20, b20, c20⟩ :=
    claim1_cache_expiry initState emptyDB 0 10 20 "k" (.str "v") rfl
  exact ⟨a5, a20, b20 (by decide) ⟨[], [], [], [], []⟩ rfl, c20⟩

end ClaimC1

section ClaimC3

/-- C3 counterexample: with the compression toggle off, a compressed record
served from the memory cache comes back still carrying its `_compressed`
marker — the read path keys decompression on the process-wide toggle, not on
the per-record marker — refuting the claim that every tier returns
marker-free records regardless of the toggle. -/
theorem claim3_counterexample :
    getField (((getURL c3State (.num 1)).1).getD .null) "_compressed" =
      some (.bool true) := rfl

/-- C3 amended: the read path decompresses only while the process-wide
toggle is on: with the toggle on, a memory-cache hit and a structured-store
hit are both decompressed, and `decompressData` itself detects compression
per record via the marker, so an uncompressed record passes through
unchanged; the fallback-store tier (reached when the structured store is
unavailable or misses) returns records exactly as stored, without any
decompression, and with the toggle off no tier decompresses. -/
theorem claim3_read_decompression :
    (∀ (s : SMState) (id : JKey) (d : JVal), s.compressionEnabled = true →
      alistGet s.cache ("url_" ++ jkeyStr id) = some d →
      (getURL s id).1 = some (decompressData d)) ∧
    (∀ (s : SMState) (db : DB) (id : JKey) (d : JVal),
      s.compressionEnabled = true →
      alistGet s.cache ("url_" ++ jkeyStr id) = none →
      s.db = some db → getRecord db.urls "id" id = some d →
      truthy d = true → (getURL s id).1 = some (decompressData d)) ∧
    (∀ d : JVal, truthy (fieldD d "_compressed") = false →
      decompressData d = d) ∧
    (∀ (s : SMState) (id : JKey) (v : JVal),
      (s.db = none ∨ ∃ db, s.db = some db ∧ getRecord db.urls "id" id = none) →
      alistGet s.cache ("url_" ++ jkeyStr id) = none →
      alistGet s.localStore ("urls_" ++ jkeyStr id) = some (.ser v) →
      truthy v = true → (getURL s id).1 = some v) := by
  refine ⟨?_, ?_, ?_, ?_⟩
  · intro s id d htog hcache
    simp [getURL, hcache, readTransform, htog]
  · intro s db id d htog hcache hdb hrec htr
    simp [getURL, hcache, hdb, hrec, htr, readTransform, htog]
  · intro d h
    simp [decompressData, h]
  · intro s id v hmiss hcache hls htr
    rcases hmiss with hdb | ⟨db, hdb, hrec⟩
    · simp [getURL, hdb, hcache, getURLLocal, hls, htr]
    · simp [getURL, hdb, hcache, hrec, getURLLocal, hls, htr]

/-- Witness for the amended C3 at concrete states for each tier: a
memory-cache hit, a structured-store hit, the marker pass-through, and a
fallback-store read. -/
theorem claim3_read_decompression_witness :
    (getURL ⟨none, [("url_1", compressData sampleRec)], [], true⟩ (.num 1)).1 =
      some (decompressData (compressData sampleRec)) ∧
    (getURL ⟨some ⟨[compressData sampleRec], [], [], [], []⟩, [], [], true⟩
        (.num 1)).1 = some (decompressData (compressData sampleRec)) ∧
    decompressData sampleRec = sampleRec ∧
    (getURL ⟨none, [], [("urls_1", .ser sampleRec)], true⟩ (.num 1)).1 =
      some sampleRec := by
  obtain ⟨a, b, c, d⟩ := claim3_read_decompression
  refine ⟨a ⟨none, [("url_1", compressData sampleRec)], [], true⟩ (.num 1)
      (compressData sampleRec) rfl ?_,
    b ⟨some ⟨[compressData sampleRec], [], [], [], []⟩, [], [], true⟩
      ⟨[compressData sampleRec], [], [], [], []⟩ (.num 1)
      (compressData sampleRec) rfl rfl rfl ?_ rfl,
    c sampleRec (by decide),
    d ⟨none, [], [("urls_1", .ser sampleRec)], true⟩ (.num 1) sampleRec
      (Or.inl rfl) rfl ?_ (by decide)⟩
  · rfl
  · rfl
  · rfl

end ClaimC3

section ClaimC7

theorem append_ne_of_take (p t k : String)
    (h : k.data.take p.data.length ≠ p.data) : p ++ t ≠ k := by
  intro heq
  apply h
  rw [← heq, String.data_append, List.take_left]

theorem legacy_not_written (k2 : String) (hk : k2 ∈ legacyKeys) :
    (∀ t, "urls_" ++ t ≠ k2) ∧ (∀ t, "setting_" ++ t ≠ k2) := by
  fin_cases hk <;>
    exact ⟨fun t => append_ne_of_take _ t _ (by decide),
           fun t => append_ne_of_take _ t _ (by decide)⟩

theorem saveURL_ls_get (st : SMState) (f : Bool) (r : JVal) (k2 : String)
    (h : ∀ t, "urls_" ++ t ≠ k2) :
    alistGet (saveURL st f r).2.localStore k2 = alistGet st.localStore k2 := by
  cases hdb : st.db with
  | none =>
    simp only [saveURL, saveURLBody, hdb]
    exact alistGet_set_ne _ _ _ _ (Ne.symm (h _))
  | some db =>
    cases f with
    | true => simp [saveURL, saveURLBody, hdb]
    | false =>
      cases hput : putRec db.urls "id" (saveTransform st.compressionEnabled r) with
      | error e => simp [saveURL, saveURLBody, hdb, hput]
      | ok u =>
        simp only [saveURL, saveURLBody, hdb, hput]
        exact alistGet_set_ne _ _ _ _ (Ne.symm (h _))

theorem saveSetting_ls_get (st : SMState) (now : Int) (key2 : String)
    (v : JVal) (k2 : String) (h : "setting_" ++ key2 ≠ k2) :
    alistGet (saveSetting st now key2 v).2.localStore k2 =
      alistGet st.localStore k2 := by
  cases hdb : st.db with
  | none =>
    simp only [saveSetting, hdb]
    exact alistGet_set_ne _ _ _ _ (Ne.symm h)
  | some db =>
    cases hput : putRec db.settings "key"
        (.obj [("key", .str key2), ("value", v), ("timestamp", .num now)]) with
    | error e => simp [saveSetting, hdb, hput]
    | ok u =>
      simp only [saveSetting, hdb, hput]
      exact alistGet_set_ne _ _ _ _ (Ne.symm h)

theorem migFold_ls_get (items : List JVal) (a : Nat × SMState) (k2 : String)
    (hu : ∀ t, "urls_" ++ t ≠ k2) :
    alistGet (items.foldl
        (fun a u => (a.1 + 1, (saveURL a.2 false u).2)) a).2.localStore k2 =
      alistGet a.2.localStore k2 := by
  induction items generalizing a with
  | nil => rfl
  | cons u rest ih =>
    rw [List.foldl_cons, ih]
    exact saveURL_ls_get a.2 false u k2 hu

theorem migStep_ls_frame (now : Int) (a : Nat × SMState) (key k2 : String)
    (hu : ∀ t, "urls_" ++ t ≠ k2) (hs : ∀ t, "setting_" ++ t ≠ k2)
    (hkk : k2 ≠ key) :
    alistGet (migStep now a key).2.localStore k2 =
      alistGet a.2.localStore k2 := by
  cases halg : alistGet a.2.localStore key with
  | none => simp [migStep, halg]
  | some lv =>
    cases lv with
    | malformed m => simp [migStep, halg]
    | ser v0 =>
      simp only [migStep, halg]
      rw [alistGet_remove_ne _ _ _ hkk]
      by_cases hc1 : strContains key "urls" = true
      · simp only [hc1, if_true]
        cases v0 with
        | arr items => exact migFold_ls_get items (0, a.2) k2 hu
        | null => rfl
        | bool b => rfl
        | num n => rfl
        | str s2 => rfl
        | obj fs => rfl
      · simp only [Bool.not_eq_true] at hc1
        by_cases hc2 : strContains key "rateLimit" = true
        · simp only [hc1, hc2, Bool.false_eq_true, if_false, if_true]
          exact saveSetting_ls_get a.2 now "rateLimit" v0 k2 (hs "rateLimit")
        · simp only [Bool.not_eq_true] at hc2
          by_cases hc3 : strContains key "securityStats" = true
          · simp only [hc1, hc2, hc3, Bool.false_eq_true, if_false, if_true]
            exact saveSetting_ls_get a.2 now "securityStats" v0 k2
              (hs "securityStats")
          · simp only [Bool.not_eq_true] at hc3
            simp [hc1, hc2, hc3]

theorem migStep_noSer_self (now : Int) (a : Nat × SMState) (key : String) :
    noSer (migStep now a key).2 key := by
  cases halg : alistGet a.2.localStore key with
  | none => intro v; simp [migStep, halg]
  | some lv =>
    cases lv with
    | malformed m => intro v; simp [migStep, halg]
    | ser v0 => intro v; simp [migStep, halg, alistGet_remove_self]

theorem migStep_noSer_preserve (now : Int) (a : Nat × SMState)
    (key k2 : String) (hu : ∀ t, "urls_" ++ t ≠ k2)
    (hs : ∀ t, "setting_" ++ t ≠ k2) (hns : noSer a.2 k2) :
    noSer (migStep now a key).2 k2 := by
  by_cases hkk : k2 = key
  · subst hkk
    exact migStep_noSer_self now a k2
  · intro w
    rw [migStep_ls_frame now a key k2 hu hs hkk]
    exact hns w

theorem migFold_noSer (now : Int) (keys : List String) (a : Nat × SMState)
    (hks : ∀ k ∈ keys, k ∈ legacyKeys) :
    ∀ k2, k2 ∈ legacyKeys → (k2 ∈ keys ∨ noSer a.2 k2) →
      noSer (keys.foldl (migStep now) a).2 k2 := by
  induction keys generalizing a with
  | nil =>
    intro k2 _ hor
    rcases hor with h | h
    · exact absurd h (List.not_mem_nil k2)
    · exact h
  | cons key rest ih =>
    intro k2 hk2 hor
    rw [List.foldl_cons]
    refine ih (migStep now a key) (fun k hk => hks k (by simp [hk])) k2 hk2 ?_
    rcases hor with hmem | hns
    · rcases List.mem_cons.mp hmem with rfl | hrest
      · exact Or.inr (migStep_noSer_self now a k2)
      · exact Or.inl hrest
    · obtain ⟨hu, hs⟩ := legacy_not_written k2 hk2
      exact Or.inr (migStep_noSer_preserve now a key k2 hu hs hns)

theorem migStep_id (now : Int) (a : Nat × SMState) (key : String)
    (h : noSer a.2 key) : migStep now a key = a := by
  cases halg : alistGet a.2.localStore key with
  | none => simp [migStep, halg]
  | some lv =>
    cases lv with
    | malformed m => simp [migStep, halg]
    | ser v0 => exact absurd halg (h v0)

theorem migFold_id (now : Int) (keys : List String) (a : Nat × SMState)
    (h : ∀ k ∈ keys, noSer a.2 k) : keys.foldl (migStep now) a = a := by
  induction keys with
  | nil => rfl
  | cons key rest ih =>
    rw [List.foldl_cons, migStep_id now a key (h key (by simp))]
    exact ih (fun k hk => h k (by simp [hk]))

/-- C7: `migrateFromOldStorage` is idempotent — after one run every
successfully migrated legacy key has been removed (and a key whose value
fails to parse migrates nothing on either run), so a second run migrates
zero items and leaves the entire state unchanged, for every initial
fallback-store state. -/
theorem claim7_migration_idempotent (s : SMState) (now now2 : Int) :
    (migrateFromOldStorage (migrateFromOldStorage s now).2 now2).1 = 0 ∧
    (migrateFromOldStorage (migrateFromOldStorage s now).2 now2).2 =
      (migrateFromOldStorage s now).2 := by
  have hall : ∀ k ∈ legacyKeys, noSer (migrateFromOldStorage s now).2 k := by
    intro k hk
    exact migFold_noSer now legacyKeys (0, s) (fun _ h => h) k hk (Or.inl hk)
  have hid := migFold_id now2 legacyKeys (0, (migrateFromOldStorage s now).2)
    (fun k hk => hall k hk)
  constructor
  · show (legacyKeys.foldl (migStep now2) (0, (migrateFromOldStorage s now).2)).1 = 0
    rw [hid]
  · show (legacyKeys.foldl (migStep now2) (0, (migrateFromOldStorage s now).2)).2 =
      (migrateFromOldStorage s now).2
    rw [hid]

end ClaimC7

section ClaimC4Helpers

theorem alistGet_filter_of_keep {α : Type} (l : List (String × α))
    (p : String × α → Bool) (k : String)
    (h : ∀ kv : String × α, kv.1 = k → p kv = true) :
    alistGet (l.filter p) k = alistGet l k := by
  induction l with
  | nil => rfl
  | cons kv rest ih =>
    by_cases hk : kv.1 = k
    · rw [List.filter_cons, if_pos (by rw [h kv hk]), alistGet_cons,
        alistGet_cons, if_pos hk, if_pos hk]
    · cases hpv : p kv with
      | true =>
        rw [List.filter_cons, if_pos (by rw [hpv]), alistGet_cons,
          alistGet_cons, if_neg hk, if_neg hk, ih]
      | false =>
        rw [List.filter_cons, if_neg (by rw [hpv]; simp), alistGet_cons,
          if_neg hk, ih]

theorem getField_decompress (u : JVal) (k : String) (h : isMarker k = false) :
    getField (decompressData u) k = getField u k := by
  unfold decompressData
  by_cases hc : (truthy u && truthy (fieldD u "_compressed")) = true
  · rw [if_pos hc]
    cases u with
    | obj fs =>
      show getField (.obj (fs.filter fun kv => !isMarker kv.1)) k =
        getField (.obj fs) k
      simp only [getField]
      exact alistGet_filter_of_keep fs _ k (fun kv hkv => by rw [hkv, h]; rfl)
    | null => rfl
    | bool b => rfl
    | num n => rfl
    | str s2 => rfl
    | arr xs => rfl
  · rw [if_neg hc]

theorem keyOf_decompress (u : JVal) :
    keyOf (decompressData u) "id" = keyOf u "id" := by
  unfold keyOf
  rw [getField_decompress u "id" (by decide)]

theorem getField_saveTransform (e : Bool) (r : JVal)
    (h : plainRecord r = true) (k : String) (hk : isMarker k = false) :
    getField (saveTransform e r) k = getField r k := by
  cases e with
  | false => rfl
  | true =>
    match r, h with
    | .obj fs, _ => exact getField_compress_obj fs k hk

theorem read_save_inverse (e : Bool) (r : JVal) (h : plainRecord r = true) :
    readTransform e (saveTransform e r) = r := by
  cases e with
  | false => rfl
  | true =>
    show decompressData (compressData r) = r
    exact decompress_compress r h

theorem upsertRecs_ne_nil (l : List JVal) (path : String) (k : JKey)
    (r : JVal) : upsertRecs l path k r ≠ [] := by
  cases l with
  | nil => simp [upsertRecs]
  | cons x xs =>
    by_cases hx : (keyOf x path == some k) = true
    · simp [upsertRecs, hx]
    · simp only [Bool.not_eq_true] at hx
      simp [upsertRecs, hx]

theorem isEmpty_false_of_ne_nil (l : List JVal) (h : l ≠ []) :
    l.isEmpty = false := by
  cases l with
  | nil => exact absurd rfl h
  | cons x xs => rfl

theorem saveURL_ok (s : SMState) (db : DB) (r : JVal) (k : JKey)
    (hdb : s.db = some db)
    (hk : keyOf (saveTransform s.compressionEnabled r) "id" = some k) :
    saveURL s false r =
      (true,
       { s with
           db := some { db with
             urls := upsertRecs db.urls "id" k
               (saveTransform s.compressionEnabled r) }
           cache := alistSet s.cache ("url_" ++ tmpl (getField r "id"))
             (saveTransform s.compressionEnabled r)
           localStore := alistSet s.localStore ("urls_" ++ tmpl (getField r "id"))
             (LSVal.ser (saveTransform s.compressionEnabled r)) }) := by
  simp [saveURL, saveURLBody, hdb, putRec, hk]

theorem mem_of_getRecord_eq_some (l : List JVal) (path : String) (k : JKey)
    (r : JVal) (h : getRecord l path k = some r) : r ∈ l :=
  List.mem_of_find?_eq_some h

theorem countKey_cons (x : JVal) (xs : List JVal) (k : JKey) :
    countKey (x :: xs) k =
      (if keyOf x "id" = some k then 1 else 0) + countKey xs k := by
  by_cases hx : keyOf x "id" = some k
  · have hb : (keyOf x "id" == some k) = true := by simp [hx]
    simp [countKey, List.filter_cons, hb, hx, Nat.add_comm]
  · have hb : (keyOf x "id" == some k) = false := by simp [hx]
    simp [countKey, List.filter_cons, hb, hx]

theorem countKey_upsert_eq (l : List JVal) (k : JKey) (r : JVal)
    (hk : keyOf r "id" = some k) :
    countKey (upsertRecs l "id" k r) k =
      if countKey l k = 0 then 1 else countKey l k := by
  induction l with
  | nil => simp [upsertRecs, countKey, List.filter_cons, hk]
  | cons x xs ih =>
    by_cases hx : keyOf x "id" = some k
    · have hb : (keyOf x "id" == some k) = true := by simp [hx]
      simp only [upsertRecs, hb, if_true]
      rw [countKey_cons, countKey_cons, if_pos hk, if_pos hx]
      simp
    · have hb : (keyOf x "id" == some k) = false := by simp [hx]
      simp only [upsertRecs, hb, Bool.false_eq_true, if_false]
      rw [countKey_cons, countKey_cons, if_neg hx, ih]
      simp

theorem countKey_map_decompress (l : List JVal) (k : JKey) :
    countKey (l.map decompressData) k = countKey l k := by
  induction l with
  | nil => rfl
  | cons x xs ih =>
    rw [List.map_cons, countKey_cons, countKey_cons, keyOf_decompress, ih]

end ClaimC4Helpers

section ClaimC4

/-- C4: after `saveURL r` resolves successfully, `getURL r.id` returns a
record equal to `r` (up to compression — the stored representation is the
compressed form, the returned value is `r` itself), served from the memory
cache with the state unchanged (no durable read); and saving a second record
with the same id replaces rather than duplicates: `getAllURLs` afterwards
contains exactly one record with that id, carrying the later field values. -/
theorem claim4_write_read_upsert (s : SMState) (db : DB) (r1 r2 : JVal)
    (i : Int) (hdb : s.db = some db)
    (hnd : countKey db.urls (.num i) ≤ 1)
    (h1 : plainRecord r1 = true) (h2 : plainRecord r2 = true)
    (hid1 : getField r1 "id" = some (.num i))
    (hid2 : getField r2 "id" = some (.num i)) :
    (saveURL s false r1).1 = true ∧
    alistGet (saveURL s false r1).2.cache ("url_" ++ toString i) =
      some (saveTransform s.compressionEnabled r1) ∧
    getURL (saveURL s false r1).2 (.num i) =
      (some r1, (saveURL s false r1).2) ∧
    (saveURL (saveURL s false r1).2 false r2).1 = true ∧
    countKey (getAllURLs (saveURL (saveURL s false r1).2 false r2).2).1
      (.num i) = 1 ∧
    r2 ∈ (getAllURLs (saveURL (saveURL s false r1).2 false r2).2).1 := by
  have hk1 : keyOf (saveTransform s.compressionEnabled r1) "id" =
      some (.num i) := by
    unfold keyOf
    rw [getField_saveTransform _ _ h1 _ (by decide), hid1]
  have hs1 := saveURL_ok s db r1 (.num i) hdb hk1
  have htmpl : tmpl (getField r1 "id") = toString i := by
    rw [hid1]
    simp [tmpl, tmplVal]
  rw [htmpl] at hs1
  have hcache1 : alistGet (saveURL s false r1).2.cache ("url_" ++ toString i) =
      some (saveTransform s.compressionEnabled r1) := by
    rw [hs1]
    exact alistGet_set_self _ _ _
  have hget1 : getURL (saveURL s false r1).2 (.num i) =
      (some r1, (saveURL s false r1).2) := by
    have hjk : jkeyStr (JKey.num i) = toString i := rfl
    have hcomp : (saveURL s false r1).2.compressionEnabled =
        s.compressionEnabled := by rw [hs1]
    simp only [getURL, hjk, hcache1, hcomp]
    rw [read_save_inverse _ _ h1]
  have hk2 : keyOf (saveTransform s.compressionEnabled r2) "id" =
      some (.num i) := by
    unfold keyOf
    rw [getField_saveTransform _ _ h2 _ (by decide), hid2]
  have hcomp1 : (saveURL s false r1).2.compressionEnabled =
      s.compressionEnabled := by rw [hs1]
  have hdb1 : (saveURL s false r1).2.db =
      some { db with
        urls := upsertRecs db.urls "id" (.num i)
          (saveTransform s.compressionEnabled r1) } := by rw [hs1]
  have hk2' : keyOf (saveTransform (saveURL s false r1).2.compressionEnabled r2)
      "id" = some (.num i) := by rw [hcomp1]; exact hk2
  have hs2 := saveURL_ok (saveURL s false r1).2
    { db with
      urls := upsertRecs db.urls "id" (.num i)
        (saveTransform s.compressionEnabled r1) } r2 (.num i) hdb1 hk2'
  have htmpl2 : tmpl (getField r2 "id") = toString i := by
    rw [hid2]
    simp [tmpl, tmplVal]
  rw [htmpl2, hcomp1] at hs2
  -- the urls store after the two saves
  have hurls2 : (saveURL (saveURL s false r1).2 false r2).2.db =
      some { db with
        urls := upsertRecs
          (upsertRecs db.urls "id" (.num i)
            (saveTransform s.compressionEnabled r1)) "id" (.num i)
          (saveTransform s.compressionEnabled r2) } := by
    rw [hs2, hs1]
  have hcomp2 : (saveURL (saveURL s false r1).2 false r2).2.compressionEnabled =
      s.compressionEnabled := by rw [hs2, hs1]
  -- key count facts
  have hcount1 : countKey (upsertRecs db.urls "id" (.num i)
      (saveTransform s.compressionEnabled r1)) (.num i) = 1 := by
    rw [countKey_upsert_eq _ _ _ hk1]
    rcases Nat.le_one_iff_eq_zero_or_eq_one.mp hnd with h0 | hone
    · rw [if_pos h0]
    · rw [hone]
      simp
  have hcount2 : countKey (upsertRecs
      (upsertRecs db.urls "id" (.num i) (saveTransform s.compressionEnabled r1))
      "id" (.num i) (saveTransform s.compressionEnabled r2)) (.num i) = 1 := by
    rw [countKey_upsert_eq _ _ _ hk2, hcount1]
    simp
  -- the stored record under the id after the second save
  have hrec2 : getRecord (upsertRecs
      (upsertRecs db.urls "id" (.num i) (saveTransform s.compressionEnabled r1))
      "id" (.num i) (saveTransform s.compressionEnabled r2)) "id" (.num i) =
      some (saveTransform s.compressionEnabled r2) :=
    getRecord_upsert_self _ _ _ _ hk2
  have hmem2 : saveTransform s.compressionEnabled r2 ∈ upsertRecs
      (upsertRecs db.urls "id" (.num i) (saveTransform s.compressionEnabled r1))
      "id" (.num i) (saveTransform s.compressionEnabled r2) :=
    mem_of_getRecord_eq_some _ _ _ _ hrec2
  have hne : (upsertRecs
      (upsertRecs db.urls "id" (.num i) (saveTransform s.compressionEnabled r1))
      "id" (.num i) (saveTransform s.compressionEnabled r2)).isEmpty = false :=
    isEmpty_false_of_ne_nil _ (upsertRecs_ne_nil _ _ _ _)
  -- evaluate getAllURLs
  have hall : (getAllURLs (saveURL (saveURL s false r1).2 false r2).2).1 =
      (if s.compressionEnabled then
        (upsertRecs
          (upsertRecs db.urls "id" (.num i)
            (saveTransform s.compressionEnabled r1)) "id" (.num i)
          (saveTransform s.compressionEnabled r2)).map decompressData
       else upsertRecs
          (upsertRecs db.urls "id" (.num i)
            (saveTransform s.compressionEnabled r1)) "id" (.num i)
          (saveTransform s.compressionEnabled r2)) := by
    rw [getAllURLs, hurls2]
    simp only [hne, Bool.false_eq_true, if_false, hcomp2]
  have hkr2 : keyOf r2 "id" = some (.num i) := by
    unfold keyOf
    rw [hid2]
  refine ⟨by rw [hs1], hcache1, hget1, by rw [hs2], ?_, ?_⟩
  · rw [hall]
    by_cases he : s.compressionEnabled = true
    · rw [if_pos he, countKey_map_decompress]
      exact hcount2
    · rw [if_neg he]
      exact hcount2
  · rw [hall]
    by_cases he : s.compressionEnabled = true
    · rw [if_pos he]
      have hd : decompressData (saveTransform s.compressionEnabled r2) = r2 := by
        rw [he]
        exact decompress_compress r2 h2
      have hm := List.mem_map_of_mem decompressData hmem2
      rw [hd] at hm
      exact hm
    · simp only [Bool.not_eq_true] at he
      have hse : saveTransform s.compressionEnabled r2 = r2 := by
        rw [he]
        rfl
      rw [if_neg (by rw [he]; simp), hse]
      exact mem_of_getRecord_eq_some _ _ _ _
        (getRecord_upsert_self _ _ _ _ hkr2)

/-- Witness for C4 at a fresh state and a concrete pair of records. -/
theorem claim4_write_read_upsert_witness :
    (saveURL initState false sampleRec).1 = true ∧
    alistGet (saveURL initState false sampleRec).2.cache
      ("url_" ++ toString (1 : Int)) =
      some (saveTransform initState.compressionEnabled sampleRec) ∧
    getURL (saveURL initState false sampleRec).2 (.num 1) =
      (some sampleRec, (saveURL initState false sampleRec).2) ∧
    (saveURL (saveURL initState false sampleRec).2 false sampleRec5).1 = true ∧
    countKey (getAllURLs (saveURL (saveURL initState false sampleRec).2 false
        sampleRec5).2).1 (.num 1) = 1 ∧
    sampleRec5 ∈ (getAllURLs (saveURL (saveURL initState false sampleRec).2
        false sampleRec5).2).1 :=
  claim4_write_read_upsert initState emptyDB sampleRec sampleRec5 1 rfl
    (by decide) (by decide) (by decide) rfl rfl

end ClaimC4

section ClaimC8Helpers

theorem dbParts_congr (s1 s2 : SMState) (h : s1.db = s2.db) :
    dbSettings s1 = dbSettings s2 ∧ dbAnalytics s1 = dbAnalytics s2 ∧
    dbCacheStore s1 = dbCacheStore s2 ∧ dbSecurity s1 = dbSecurity s2 ∧
    urlIds s1 = urlIds s2 := by
  refine ⟨?_, ?_, ?_, ?_, ?_⟩ <;>
    simp [dbSettings, dbAnalytics, dbCacheStore, dbSecurity, urlIds, dbUrls, h]

theorem saveURL_db_frame (st : SMState) (f : Bool) (r : JVal) :
    dbSettings (saveURL st f r).2 = dbSettings st ∧
    dbAnalytics (saveURL st f r).2 = dbAnalytics st ∧
    dbCacheStore (saveURL st f r).2 = dbCacheStore st ∧
    dbSecurity (saveURL st f r).2 = dbSecurity st ∧
    (∀ x ∈ urlIds st, x ∈ urlIds (saveURL st f r).2) := by
  cases hdb : st.db with
  | none =>
    refine ⟨?_, ?_, ?_, ?_, ?_⟩ <;>
      simp [saveURL, saveURLBody, hdb, dbSettings, dbAnalytics, dbCacheStore,
        dbSecurity, urlIds, dbUrls]
  | some db =>
    cases f with
    | true =>
      refine ⟨?_, ?_, ?_, ?_, ?_⟩ <;> simp [saveURL, saveURLBody, hdb]
    | false =>
      cases hko : keyOf (saveTransform st.compressionEnabled r) "id" with
      | none =>
        have hput : putRec db.urls "id" (saveTransform st.compressionEnabled r) =
            .error () := by simp [putRec, hko]
        refine ⟨?_, ?_, ?_, ?_, ?_⟩ <;> simp [saveURL, saveURLBody, hdb, hput]
      | some k =>
        have hput : putRec db.urls "id" (saveTransform st.compressionEnabled r) =
            .ok (upsertRecs db.urls "id" k
              (saveTransform st.compressionEnabled r)) := by simp [putRec, hko]
        have hs : (saveURL st false r).2.db =
            some { db with
                   urls := upsertRecs db.urls "id" k
                             (saveTransform st.compressionEnabled r) } := by
          simp [saveURL, saveURLBody, hdb, hput]
        refine ⟨?_, ?_, ?_, ?_, ?_⟩
        · simp [dbSettings, hs, hdb]
        · simp [dbAnalytics, hs, hdb]
        · simp [dbCacheStore, hs, hdb]
        · simp [dbSecurity, hs, hdb]
        · intro x hx
          simp only [urlIds, dbUrls, hdb] at hx
          simp only [urlIds, dbUrls, hs]
          exact keysOf_upsert_superset db.urls "id" k
            (saveTransform st.compressionEnabled r) hko x hx

theorem optReSave_frame (L : List JVal) (st : SMState) :
    dbSettings (optReSave L st) = dbSettings st ∧
    dbAnalytics (optReSave L st) = dbAnalytics st ∧
    dbCacheStore (optReSave L st) = dbCacheStore st ∧
    dbSecurity (optReSave L st) = dbSecurity st ∧
    (∀ x ∈ urlIds st, x ∈ urlIds (optReSave L st)) := by
  induction L generalizing st with
  | nil => exact ⟨rfl, rfl, rfl, rfl, fun x hx => hx⟩
  | cons u rest ih =>
    have hstep : optReSave (u :: rest) st =
        optReSave rest
          (if !truthy (fieldD u "_compressed") && st.compressionEnabled then
            (saveURL st false u).2
          else st) := rfl
    rw [hstep]
    by_cases hc : (!truthy (fieldD u "_compressed") && st.compressionEnabled) = true
    · rw [if_pos hc]
      obtain ⟨a1, a2, a3, a4, a5⟩ := saveURL_db_frame st false u
      obtain ⟨b1, b2, b3, b4, b5⟩ := ih (saveURL st false u).2
      exact ⟨b1.trans a1, b2.trans a2, b3.trans a3, b4.trans a4,
        fun x hx => b5 x (a5 x hx)⟩
    · rw [if_neg hc]
      exact ih st

theorem getAllURLs_db (s : SMState) : (getAllURLs s).2.db = s.db := by
  cases hdb : s.db with
  | none => simp [getAllURLs, hdb]
  | some db =>
    by_cases he : db.urls.isEmpty = true
    · simp [getAllURLs, hdb, he]
    · simp only [Bool.not_eq_true] at he
      simp [getAllURLs, hdb, he]

end ClaimC8Helpers

theorem capDrop_nil_pred (sec : List JVal)
    (hlen : ¬ 1000 < (((sec.filter (fun r => (tsNum r).isSome)).insertionSort
      (fun a b => secLe a b = true)).take 2000).length) :
    sec.filter (fun r =>
      match keyOf r "id" with
      | some k => !(((capDrop sec).filterMap
          (fun x => keyOf x "id")).contains k)
      | none => true) = sec := by
  have hcap : capDrop sec = [] := by
    simp only [capDrop]
    rw [if_neg hlen]
  refine List.filter_eq_self.mpr (fun r _ => ?_)
  rw [hcap]
  cases hko : keyOf r "id" with
  | none => simp
  | some k => simp

theorem optimizeStorage_parts (s : SMState) (now : Int) :
    dbSettings (optimizeStorage s now).2 = dbSettings s ∧
    dbAnalytics (optimizeStorage s now).2 = dbAnalytics s ∧
    dbCacheStore (optimizeStorage s now).2 =
      (dbCacheStore s).filter (fun r => !expiredLE now r) ∧
    dbSecurity (optimizeStorage s now).2 =
      (dbSecurity s).filter (fun r =>
        match keyOf r "id" with
        | some k => !(((capDrop (dbSecurity s)).filterMap
            (fun x => keyOf x "id")).contains k)
        | none => true) ∧
    (∀ x ∈ urlIds s, x ∈ urlIds (optimizeStorage s now).2) := by
  cases hdb : s.db with
  | none =>
    have hopt : (optimizeStorage s now).2 = optReSave (getAllURLsLocal s) s := by
      simp [optimizeStorage, clearExpiredCache, hdb, getAllURLs]
    obtain ⟨f1, f2, f3, f4, f5⟩ := optReSave_frame (getAllURLsLocal s) s
    rw [hopt]
    refine ⟨f1, f2, ?_, ?_, ?_⟩
    · rw [f3]
      simp [dbCacheStore, hdb]
    · rw [f4]
      simp [dbSecurity, hdb]
    · exact f5
  | some db =>
    have h3p : clearExpiredCache s now =
        (some ((db.cacheStore.filter (expiredLE now)).length),
         { s with db := some { db with
             cacheStore := db.cacheStore.filter (fun r => !expiredLE now r) } }) := by
      simp [clearExpiredCache, hdb]
    by_cases hlen : 1000 <
        (((db.security.filter (fun r => (tsNum r).isSome)).insertionSort
          (fun a b => secLe a b = true)).take 2000).length
    · have hopt : (optimizeStorage s now).2 =
          optReSave
            (getAllURLs { s with db := some { db with
              cacheStore := db.cacheStore.filter (fun r => !expiredLE now r)
              security := db.security.filter (fun r =>
                match keyOf r "id" with
                | some k => !((((((db.security.filter
                    (fun r => (tsNum r).isSome)).insertionSort
                    (fun a b => secLe a b = true)).take 2000).drop 1000).filterMap
                    (fun x => keyOf x "id")).contains k)
                | none => true) } }).1
            (getAllURLs { s with db := some { db with
              cacheStore := db.cacheStore.filter (fun r => !expiredLE now r)
              security := db.security.filter (fun r =>
                match keyOf r "id" with
                | some k => !((((((db.security.filter
                    (fun r => (tsNum r).isSome)).insertionSort
                    (fun a b => secLe a b = true)).take 2000).drop 1000).filterMap
                    (fun x => keyOf x "id")).contains k)
                | none => true) } }).2 := by
        simp only [optimizeStorage, h3p, getSecurityLogs, optReSave]
        rw [if_pos hlen]
      have hcap : capDrop (dbSecurity s) =
          (((db.security.filter (fun r => (tsNum r).isSome)).insertionSort
            (fun a b => secLe a b = true)).take 2000).drop 1000 := by
        have : dbSecurity s = db.security := by simp [dbSecurity, hdb]
        rw [this]
        simp only [capDrop]
        rw [if_pos hlen]
      obtain ⟨f1, f2, f3, f4, f5⟩ := optReSave_frame _ _
      rw [hopt]
      obtain ⟨g1, g2, g3, g4, g5⟩ := dbParts_congr _ _ (getAllURLs_db _)
      refine ⟨?_, ?_, ?_, ?_, ?_⟩
      · rw [f1, g1]
        simp [dbSettings, hdb]
      · rw [f2, g2]
        simp [dbAnalytics, hdb]
      · rw [f3, g3]
        simp [dbCacheStore, hdb]
      · rw [f4, g4, hcap]
        simp [dbSecurity, hdb]
      · intro x hx
        apply f5
        rw [g5]
        simp only [urlIds, dbUrls, hdb] at hx
        simpa [urlIds, dbUrls] using hx
    · have hopt : (optimizeStorage s now).2 =
          optReSave
            (getAllURLs { s with db := some { db with
              cacheStore := db.cacheStore.filter (fun r => !expiredLE now r) } }).1
            (getAllURLs { s with db := some { db with
              cacheStore := db.cacheStore.filter (fun r => !expiredLE now r) } }).2 := by
        simp only [optimizeStorage, h3p, getSecurityLogs, optReSave]
        rw [if_neg hlen]
      obtain ⟨f1, f2, f3, f4, f5⟩ := optReSave_frame _ _
      rw [hopt]
      obtain ⟨g1, g2, g3, g4, g5⟩ := dbParts_congr _ _ (getAllURLs_db _)
      refine ⟨?_, ?_, ?_, ?_, ?_⟩
      · rw [f1, g1]
        simp [dbSettings, hdb]
      · rw [f2, g2]
        simp [dbAnalytics, hdb]
      · rw [f3, g3]
        simp [dbCacheStore, hdb]
      · rw [f4, g4]
        have hsec : dbSecurity s = db.security := by simp [dbSecurity, hdb]
        rw [hsec]
        rw [capDrop_nil_pred db.security hlen]
        rfl
      · intro x hx
        apply f5
        rw [g5]
        simp only [urlIds, dbUrls, hdb] at hx
        simpa [urlIds, dbUrls] using hx

theorem clearExpiredCache_parts (s : SMState) (now : Int) :
    dbSettings (clearExpiredCache s now).2 = dbSettings s ∧
    dbAnalytics (clearExpiredCache s now).2 = dbAnalytics s ∧
    dbSecurity (clearExpiredCache s now).2 = dbSecurity s ∧
    urlIds (clearExpiredCache s now).2 = urlIds s ∧
    dbCacheStore (clearExpiredCache s now).2 =
      (dbCacheStore s).filter (fun r => !expiredLE now r) := by
  cases hdb : s.db <;>
    simp [clearExpiredCache, hdb, dbSettings, dbAnalytics, dbSecurity, urlIds,
      dbUrls, dbCacheStore]

theorem cleanupSecurityLogs_parts (s : SMState) (now : Int) :
    dbSettings (cleanupSecurityLogs s now).2 = dbSettings s ∧
    dbAnalytics (cleanupSecurityLogs s now).2 = dbAnalytics s ∧
    dbCacheStore (cleanupSecurityLogs s now).2 = dbCacheStore s ∧
    urlIds (cleanupSecurityLogs s now).2 = urlIds s ∧
    dbSecurity (cleanupSecurityLogs s now).2 =
      (dbSecurity s).filter (fun r => !agedLE now r) := by
  cases hdb : s.db <;>
    simp [cleanupSecurityLogs, hdb, dbSettings, dbAnalytics, dbSecurity, urlIds,
      dbUrls, dbCacheStore]

section ClaimC8

/-- C8: `performMaintenance` never removes a record from the `urls`
partition (every primary key present before is present after — records may
be rewritten by the lazy re-compression pass but never deleted), leaves the
`settings` and `analytics` partitions unchanged, and the only entries it
deletes are cache-partition entries that are expired and security-log
entries that are over-age (30 days) or beyond the retained-count cap of the
1000 most recent logs.  Stated for a well-formed security store (unique
numeric-or-absent-timestamp records with valid primary keys), the invariant
IndexedDB maintains. -/
theorem claim8_maintenance_frame (s : SMState) (now : Int)
    (hwf : wfSecurity (dbSecurity s) = true) :
    (∀ x ∈ urlIds s, x ∈ urlIds (performMaintenance s now).2) ∧
    dbSettings (performMaintenance s now).2 = dbSettings s ∧
    dbAnalytics (performMaintenance s now).2 = dbAnalytics s ∧
    (∀ c ∈ dbCacheStore s, c ∉ dbCacheStore (performMaintenance s now).2 →
      expiredLE now c = true) ∧
    (∀ e ∈ dbSecurity s, e ∉ dbSecurity (performMaintenance s now).2 →
      agedLE now e = true ∨
      e ∈ capDrop ((dbSecurity s).filter (fun r => !agedLE now r))) := by
  have hpm : (performMaintenance s now).2 =
      (optimizeStorage
        (cleanupSecurityLogs (clearExpiredCache s now).2 now).2 now).2 := rfl
  obtain ⟨c1, c2, c3, c4, c5⟩ := clearExpiredCache_parts s now
  obtain ⟨l1, l2, l3, l4, l5⟩ :=
    cleanupSecurityLogs_parts (clearExpiredCache s now).2 now
  obtain ⟨o1, o2, o3, o4, o5⟩ :=
    optimizeStorage_parts (cleanupSecurityLogs (clearExpiredCache s now).2 now).2 now
  refine ⟨?_, ?_, ?_, ?_, ?_⟩
  · intro x hx
    rw [hpm]
    apply o5
    rw [l4, c4]
    exact hx
  · rw [hpm, o1, l1, c1]
  · rw [hpm, o2, l2, c2]
  · intro c hc hnc
    by_cases hce : expiredLE now c = true
    · exact hce
    · exfalso
      have hcef : expiredLE now c = false := by
        simpa using hce
      apply hnc
      rw [hpm, o3, l3, c5]
      exact List.mem_filter.mpr ⟨List.mem_filter.mpr ⟨hc, by simp [hcef]⟩,
        by simp [hcef]⟩
  · intro e he hne
    by_cases hage : agedLE now e = true
    · exact Or.inl hage
    · right
      have hagef : agedLE now e = false := by simpa using hage
      have heF2 : e ∈ (dbSecurity s).filter (fun r => !agedLE now r) :=
        List.mem_filter.mpr ⟨he, by simp [hagef]⟩
      rw [hpm, o4, l5, c3] at hne
      cases hb : (match keyOf e "id" with
        | some k => !(((capDrop ((dbSecurity s).filter
            (fun r => !agedLE now r))).filterMap
            (fun x => keyOf x "id")).contains k)
        | none => true) with
      | true => exact absurd (List.mem_filter.mpr ⟨heF2, hb⟩) hne
      | false =>
        cases hko : keyOf e "id" with
        | none =>
          rw [hko] at hb
          exact absurd hb (by simp)
        | some ke =>
          rw [hko] at hb
          have hcontains : ((capDrop ((dbSecurity s).filter
              (fun r => !agedLE now r))).filterMap
              (fun x => keyOf x "id")).contains ke = true := by
            simpa using hb
          have hkemem : ke ∈ (capDrop ((dbSecurity s).filter
              (fun r => !agedLE now r))).filterMap (fun x => keyOf x "id") :=
            List.mem_of_elem_eq_true hcontains
          obtain ⟨e2, he2mem, hke2⟩ := List.mem_filterMap.mp hkemem
          have he2sec : e2 ∈ dbSecurity s := by
            by_cases hl2 : 1000 <
                (((((dbSecurity s).filter (fun r => !agedLE now r)).filter
                  (fun r => (tsNum r).isSome)).insertionSort
                  (fun a b => secLe a b = true)).take 2000).length
            · have hcap : capDrop ((dbSecurity s).filter
                  (fun r => !agedLE now r)) =
                  (((((dbSecurity s).filter (fun r => !agedLE now r)).filter
                    (fun r => (tsNum r).isSome)).insertionSort
                    (fun a b => secLe a b = true)).take 2000).drop 1000 := by
                simp only [capDrop]
                rw [if_pos hl2]
              rw [hcap] at he2mem
              have h1 := List.mem_of_mem_drop he2mem
              have h2 := List.mem_of_mem_take h1
              have h3 := (List.perm_insertionSort
                (fun a b => secLe a b = true) _).mem_iff.mp h2
              exact List.mem_of_mem_filter (List.mem_of_mem_filter h3)
            · have hcap : capDrop ((dbSecurity s).filter
                  (fun r => !agedLE now r)) = [] := by
                simp only [capDrop]
                rw [if_neg hl2]
              rw [hcap] at he2mem
              exact absurd he2mem (List.not_mem_nil e2)
          have hnodup : ((dbSecurity s).map (fun x => keyOf x "id")).Nodup := by
            have h := hwf
            simp only [wfSecurity, Bool.and_eq_true, decide_eq_true_eq] at h
            exact h.2
          have heq : e = e2 :=
            List.inj_on_of_nodup_map hnodup he he2sec (by rw [hko, hke2])
          rw [heq]
          exact he2mem

/-- Witness for C8 at a concrete populated state. -/
theorem claim8_maintenance_frame_witness :
    wfSecurity (dbSecurity c8State) = true ∧
    dbSettings (performMaintenance c8State 200).2 = dbSettings c8State ∧
    dbAnalytics (performMaintenance c8State 200).2 = dbAnalytics c8State ∧
    some (JKey.num 1) ∈ urlIds (performMaintenance c8State 200).2 := by
  obtain ⟨a, b, c, _, _⟩ := claim8_maintenance_frame c8State 200 (by decide)
  exact ⟨by decide, b, c, a (some (JKey.num 1)) (by decide)⟩

end ClaimC8
